import Mathlib

/-
Verification of the penalty catalogue of the lessOptimizers repository
(headers glmnet_mcp.h, ista_ridge.h, lesstimate/glmnet_ridge.h and
simplified_interfaces_helper.h).

Doubles are modelled as rationals.  The only places where IEEE non-finite
values (infinities, NaN) can arise from finite inputs are the three
divisions inside penaltyMcpGlmnet::getZ; there the embedding models the
IEEE outcome of a division by an exact zero explicitly, following the
semantics of ieee division, of the comparisons (every comparison with NaN
is false) and of std::max / std::min (std::max(a, b) is b if a < b and a
otherwise, so std::max(a, NaN) = a; symmetrically for std::min).
-/

namespace lessSEM

/-- penaltyType: the penalty kinds produced by stringPenaltyToPenaltyType in
simplified_interfaces_helper.h. -/
inductive penaltyType where
  | none
  | cappedL1
  | lasso
  | lsp
  | mcp
  | scad
deriving DecidableEq

/-- resizeVector (simplified_interfaces_helper.h, lines 26-45): if the user
supplied vector has exactly one element, resize it to numberParameters
elements, all equal to that single element; otherwise return the vector
without any changes. -/
def resizeVector {α : Type} (numberParameters : Nat) (userVector : List α) : List α :=
  match userVector with
  | [userObj] => List.replicate numberParameters userObj
  | _ => userVector

/-- unknownPenaltyMessage: the message of the Rcpp::stop call in
stringPenaltyToPenaltyType. -/
def unknownPenaltyMessage (s : String) : String :=
  "Unknown penalty type: " ++ s ++ ". Supported are: none, cappedL1, lasso, lsp, mcp, or scad."

/-- stringToPenaltyKind: the if / else-if chain of stringPenaltyToPenaltyType
(simplified_interfaces_helper.h, lines 75-92) for a single entry; Option.none
stands for the branch that raises Rcpp::stop. -/
def stringToPenaltyKind (s : String) : Option penaltyType :=
  if s = "none" then some penaltyType.none
  else if s = "cappedL1" then some penaltyType.cappedL1
  else if s = "lasso" then some penaltyType.lasso
  else if s = "lsp" then some penaltyType.lsp
  else if s = "mcp" then some penaltyType.mcp
  else if s = "scad" then some penaltyType.scad
  else Option.none

/-- validPenaltyName: the names accepted by stringPenaltyToPenaltyType. -/
def validPenaltyName (s : String) : Prop :=
  (stringToPenaltyKind s).isSome = true

instance (s : String) : Decidable (validPenaltyName s) := by
  unfold validPenaltyName
  infer_instance

/-- stringPenaltyToPenaltyType (simplified_interfaces_helper.h, lines 69-96):
translates a vector of strings to penalty kinds, raising Rcpp::stop at the
first entry that is not recognised (the loop never runs past a stop). -/
def stringPenaltyToPenaltyType : List String → Except String (List penaltyType)
  | [] => Except.ok []
  | s :: rest =>
    match stringToPenaltyKind s with
    | some k =>
      match stringPenaltyToPenaltyType rest with
      | Except.ok ks => Except.ok (k :: ks)
      | Except.error e => Except.error e
    | Option.none => Except.error (unknownPenaltyMessage s)

/-- tuningParametersEnet (enet.h): weights, scalar lambda and scalar alpha,
used by the ista ridge penalty. -/
structure tuningParametersEnet where
  weights : List ℚ
  lambda : ℚ
  alpha : ℚ

/-- tuningParametersEnetGlmnet (enet.h): weights and per-parameter lambda and
alpha vectors, used by the glmnet ridge penalty. -/
structure tuningParametersEnetGlmnet where
  weights : List ℚ
  lambda : List ℚ
  alpha : List ℚ

/-- tuningParametersMcpGlmnet (glmnet_mcp.h, lines 17-23). -/
structure tuningParametersMcpGlmnet where
  weights : List ℚ
  lambda : ℚ
  theta : ℚ

/-- ridgeValueTerm: the contribution lambda_i * pow(parameterValues.at(p), 2)
of one coordinate to penaltyRidge::getValue / penaltyRidgeGlmnet::getValue,
with lambda_i = (1 - alpha) * lambda * w. -/
def ridgeValueTerm (lambda alpha w x : ℚ) : ℚ :=
  ((1 - alpha) * lambda * w) * x ^ 2

/-- ridgeValueSum: the loop of penaltyRidge::getValue (ista_ridge.h,
lines 25-32). -/
def ridgeValueSum (lambda alpha : ℚ) : List ℚ → List ℚ → ℚ
  | x :: xs, w :: ws => ridgeValueTerm lambda alpha w x + ridgeValueSum lambda alpha xs ws
  | _, _ => 0

/-- penaltyRidge::getValue (ista_ridge.h, lines 14-35). -/
def penaltyRidge.getValue (parameterValues : List ℚ) (tp : tuningParametersEnet) : ℚ :=
  if tp.alpha = 1 then 0
  else ridgeValueSum tp.lambda tp.alpha parameterValues tp.weights

/-- ridgeGradTerm: the gradient entry lambda_i * 2 * parameterValues.at(p) of
one coordinate, with lambda_i = (1 - alpha) * lambda * w. -/
def ridgeGradTerm (lambda alpha w x : ℚ) : ℚ :=
  ((1 - alpha) * lambda * w) * 2 * x

/-- penaltyRidge::getGradients (ista_ridge.h, lines 37-63). -/
def penaltyRidge.getGradients (parameterValues : List ℚ) (tp : tuningParametersEnet) : List ℚ :=
  if tp.alpha = 1 then List.replicate parameterValues.length 0
  else List.zipWith (fun x w => ridgeGradTerm tp.lambda tp.alpha w x) parameterValues tp.weights

/-- ridgeGlmnetValueSum: the loop of penaltyRidgeGlmnet::getValue
(glmnet_ridge.h, lines 47-55), with per-parameter lambda and alpha. -/
def ridgeGlmnetValueSum : List ℚ → List ℚ → List ℚ → List ℚ → ℚ
  | x :: xs, w :: ws, l :: ls, a :: arest =>
    ridgeValueTerm l a w x + ridgeGlmnetValueSum xs ws ls arest
  | _, _, _, _ => 0

/-- penaltyRidgeGlmnet::getValue (glmnet_ridge.h, lines 35-58); the early
return fires when sum(alpha) equals the number of elements of alpha. -/
def penaltyRidgeGlmnet.getValue (parameterValues : List ℚ) (tp : tuningParametersEnetGlmnet) : ℚ :=
  if tp.alpha.sum = (tp.alpha.length : ℚ) then 0
  else ridgeGlmnetValueSum parameterValues tp.weights tp.lambda tp.alpha

/-- ridgeGlmnetGradList: the loop of penaltyRidgeGlmnet::getGradients
(glmnet_ridge.h, lines 83-93). -/
def ridgeGlmnetGradList : List ℚ → List ℚ → List ℚ → List ℚ → List ℚ
  | x :: xs, w :: ws, l :: ls, a :: arest =>
    ridgeGradTerm l a w x :: ridgeGlmnetGradList xs ws ls arest
  | _, _, _, _ => []

/-- penaltyRidgeGlmnet::getGradients (glmnet_ridge.h, lines 68-96). -/
def penaltyRidgeGlmnet.getGradients (parameterValues : List ℚ) (tp : tuningParametersEnetGlmnet) : List ℚ :=
  if tp.alpha.sum = (tp.alpha.length : ℚ) then List.replicate parameterValues.length 0
  else ridgeGlmnetGradList parameterValues tp.weights tp.lambda tp.alpha

/-- mcpValueTerm: the contribution of one coordinate to
penaltyMcpGlmnet::getValue (glmnet_mcp.h, lines 62-86); the continue for a
zero weight contributes 0.  Over the rationals the two comparisons
absPar <= lambda_i * theta and absPar > lambda_i * theta are exhaustive, so
the defensive error branch of the source is unreachable and not modelled. -/
def mcpValueTerm (lambda theta w x : ℚ) : ℚ :=
  if w = 0 then 0
  else
    let lambda_i := lambda * w
    let absPar := |x|
    if absPar ≤ lambda_i * theta then lambda_i * absPar - absPar ^ 2 / (2 * theta)
    else theta * lambda_i ^ 2 / 2

/-- mcpValueSum: the loop of penaltyMcpGlmnet::getValue. -/
def mcpValueSum (lambda theta : ℚ) : List ℚ → List ℚ → ℚ
  | x :: xs, w :: ws => mcpValueTerm lambda theta w x + mcpValueSum lambda theta xs ws
  | _, _ => 0

/-- penaltyMcpGlmnet::getValue (glmnet_mcp.h, lines 51-89). -/
def penaltyMcpGlmnet.getValue (parameterValues : List ℚ) (tp : tuningParametersMcpGlmnet) : ℚ :=
  mcpValueSum tp.lambda tp.theta parameterValues tp.weights

/-- penaltyMcpGlmnet::getSubgradients (glmnet_mcp.h, lines 311-316):
unconditionally raises an error. -/
def penaltyMcpGlmnet.getSubgradients (parameterValues gradients : List ℚ)
    (tp : tuningParametersMcpGlmnet) : Except String (List ℚ) :=
  Except.error "Subgradients not yet implemented for mcp penalty. Use different convergence criterion."

/-- subproblemValue (glmnet_mcp.h, lines 108-130): the value of the inner
coordinate subproblem h(z) = z g_j + z (Hd)_j + 0.5 z^2 H_jj + p(x_j+d_j+z)
with the mcp penalty substituted for p. -/
def subproblemValue (parameterValue_j z g_j d_j hessianXdirection_j H_jj lambda theta : ℚ) : ℚ :=
  let base := z * g_j + z * hessianXdirection_j + 1 / 2 * (z * z) * H_jj
  let probe := |parameterValue_j + d_j + z|
  if probe ≤ theta * lambda then base + lambda * probe - probe * probe / (2 * theta)
  else base + theta * lambda * lambda / 2

/-- effectiveH: the positive-definiteness fallback of getZ (glmnet_mcp.h,
lines 178-183): when H_jj - 1/theta <= 0 the diagonal entry is inflated by
1/theta + 0.001. -/
def effectiveH (H_jj theta : ℚ) : ℚ :=
  if H_jj - 1 / theta ≤ 0 then H_jj + 1 / theta + 1 / 1000 else H_jj

/-- posBranchRoot: the stationary point of the subproblem on the branch
parameterValue_j + d_j + z > 0 of the non-flat region (glmnet_mcp.h,
line 207). -/
def posBranchRoot (parameterValue_j g_j d_j hessianXdirection_j H_jj lambda theta : ℚ) : ℚ :=
  (-hessianXdirection_j * theta + d_j - g_j * theta - theta * lambda + parameterValue_j) /
    (H_jj * theta - 1)

/-- negBranchRoot: the stationary point of the subproblem on the branch
parameterValue_j + d_j + z < 0 of the non-flat region (glmnet_mcp.h,
line 224). -/
def negBranchRoot (parameterValue_j g_j d_j hessianXdirection_j H_jj lambda theta : ℚ) : ℚ :=
  (-hessianXdirection_j * theta + d_j - g_j * theta + theta * lambda + parameterValue_j) /
    (H_jj * theta - 1)

/-- flatRoot: the stationary point of the subproblem on the flat region
|parameterValue_j + d_j + z| > lambda * theta (glmnet_mcp.h, line 241). -/
def flatRoot (g_j hessianXdirection_j H_jj : ℚ) : ℚ :=
  -(g_j + hessianXdirection_j) / H_jj

/-- zCandidates: the array z[3] of candidate steps formed by getZ
(glmnet_mcp.h, lines 194-273), with H_jj already adjusted by the
positive-definiteness fallback.  Option.none marks a candidate that is an
IEEE non-finite value, which the final loop of getZ skips.  A division by an
exact zero is resolved following the IEEE semantics (see the header comment):

* z_1 = std::max(lo, num1 / den) with den = 0 is +inf for num1 > 0 (so the
  clip test fails and z[0] becomes the upper region bound hi) and lo for
  num1 <= 0 (std::max of a finite value with -inf or NaN);
* z_2 = std::min(lo, num2 / den) with den = 0 is -inf for num2 < 0 (so the
  clip test fails and z[1] becomes the lower region bound lo2) and lo for
  num2 >= 0;
* z_3 = -(g_j + (Hd)_j) / H_jj with H_jj = 0 is an infinity of the sign of
  the numerator, which both sign tests keep as z[2] (a non-finite
  candidate), or NaN for a zero numerator, for which both comparisons are
  false and z[2] becomes hi. -/
def zCandidates (parameterValue_j g_j d_j hessianXdirection_j H_jj lambda theta : ℚ) :
    List (Option ℚ) :=
  let den := H_jj * theta - 1
  let num1 := -hessianXdirection_j * theta + d_j - g_j * theta - theta * lambda + parameterValue_j
  let num2 := -hessianXdirection_j * theta + d_j - g_j * theta + theta * lambda + parameterValue_j
  let lo := -(parameterValue_j + d_j)
  let hi := lambda * theta - (parameterValue_j + d_j)
  let lo2 := -(lambda * theta) - (parameterValue_j + d_j)
  let c0 : ℚ :=
    if den = 0 then
      if 0 < num1 then hi
      else if parameterValue_j + d_j + lo ≤ lambda * theta then lo else hi
    else
      let z_1 := max lo (num1 / den)
      if parameterValue_j + d_j + z_1 ≤ lambda * theta then z_1 else hi
  let c1 : ℚ :=
    if den = 0 then
      if num2 < 0 then lo2
      else if -(lambda * theta) ≤ parameterValue_j + d_j + lo then lo else lo2
    else
      let z_2 := min lo (num2 / den)
      if -(lambda * theta) ≤ parameterValue_j + d_j + z_2 then z_2 else lo2
  let c2 : Option ℚ :=
    if H_jj = 0 then
      if g_j + hessianXdirection_j = 0 then some hi else Option.none
    else
      let z_3 := flatRoot g_j hessianXdirection_j H_jj
      some (if parameterValue_j + d_j + z_3 < 0 then
              if parameterValue_j + d_j + z_3 ≤ -(lambda * theta) then z_3 else lo2
            else
              if lambda * theta ≤ parameterValue_j + d_j + z_3 then z_3 else hi)
  [some c0, some c1, c2]

/-- selectMin: the final loop of getZ (glmnet_mcp.h, lines 276-302): skip the
non-finite candidates, evaluate the subproblem at the remaining ones and keep
the first candidate attaining the smallest value (the running minimum is
replaced only on a strict decrease). -/
def selectMin (f : ℚ → ℚ) : List (Option ℚ) → Option ℚ
  | [] => Option.none
  | Option.none :: rest => selectMin f rest
  | some z :: rest =>
    match selectMin f rest with
    | Option.none => some z
    | some zmin => if f zmin < f z then some zmin else some z

/-- zResult: the observable outcome of a call of getZ: whether the
not-positive-definite warning was printed, and either the returned step or
the error raised at the end (glmnet_mcp.h, lines 303-306). -/
structure zResult where
  warnedNotPosDef : Bool
  out : Except String ℚ

/-- getZafterPD: the part of getZ after the positive-definiteness fallback
(glmnet_mcp.h, lines 185-308): form the candidates, evaluate the subproblem
at the finite ones and return the minimizer, or raise the error
"Found no minimum" when every candidate is non-finite. -/
def getZafterPD (parameterValue_j g_j d_j hessianXdirection_j H_jj lambda theta : ℚ) :
    Except String ℚ :=
  match selectMin
      (fun z => subproblemValue parameterValue_j z g_j d_j hessianXdirection_j H_jj lambda theta)
      (zCandidates parameterValue_j g_j d_j hessianXdirection_j H_jj lambda theta) with
  | some z => Except.ok z
  | Option.none => Except.error "Found no minimum"

/-- getZcore: the body of penaltyMcpGlmnet::getZ (glmnet_mcp.h,
lines 151-308) on the scalars extracted for parameter j: lambda is
weights(j) * tuningParameters.lambda; a zero weight returns the unregularized
Newton step directly; otherwise the positive-definiteness check runs (with
its warning) and the candidate search is performed with the possibly inflated
H_jj. -/
def getZcore (parameterValue_j g_j d_j hessianXdirection_j H_jj weight_j tpLambda theta : ℚ) :
    zResult :=
  let lambda := weight_j * tpLambda
  if weight_j = 0 then
    ⟨false, Except.ok (-(g_j + hessianXdirection_j) / H_jj)⟩
  else
    ⟨decide (H_jj - 1 / theta ≤ 0),
     getZafterPD parameterValue_j g_j d_j hessianXdirection_j (effectiveH H_jj theta) lambda theta⟩

/-- dot: row times column product used for Hessian * t(stepDirection). -/
def dot (a b : List ℚ) : ℚ :=
  (List.zipWith (fun x y => x * y) a b).sum

/-- penaltyMcpGlmnet::getZ (glmnet_mcp.h, lines 144-309): extracts the
scalars for parameter whichPar (lines 153-163) and runs the body; row
whichPar of Hessian * t(stepDirection) is the dot product of Hessian row
whichPar with stepDirection. -/
def penaltyMcpGlmnet.getZ (whichPar : Nat)
    (parameters_kMinus1 gradient stepDirection : List ℚ) (Hessian : List (List ℚ))
    (tp : tuningParametersMcpGlmnet) : zResult :=
  getZcore (parameters_kMinus1.getD whichPar 0) (gradient.getD whichPar 0)
    (stepDirection.getD whichPar 0) (dot (Hessian.getD whichPar []) stepDirection)
    ((Hessian.getD whichPar []).getD whichPar 0) (tp.weights.getD whichPar 0)
    tp.lambda tp.theta

/-- clampedCandidates: the candidate list as the spec describes it, for
comparison with zCandidates: the stationary root of each piecewise region of
the subproblem, clipped to its feasible region, with the region boundary
substituted when the root lies outside.  The non-flat region boundaries are
lo (parameter set to zero), hi (upper boundary of the positive branch) and
lo2 (lower boundary of the negative branch). -/
def clampedCandidates (parameterValue_j g_j d_j hessianXdirection_j H_jj lambda theta : ℚ) :
    List ℚ :=
  let r1 := posBranchRoot parameterValue_j g_j d_j hessianXdirection_j H_jj lambda theta
  let r2 := negBranchRoot parameterValue_j g_j d_j hessianXdirection_j H_jj lambda theta
  let r3 := flatRoot g_j hessianXdirection_j H_jj
  let lo := -(parameterValue_j + d_j)
  let hi := lambda * theta - (parameterValue_j + d_j)
  let lo2 := -(lambda * theta) - (parameterValue_j + d_j)
  [min hi (max lo r1),
   max lo2 (min lo r2),
   if lambda * theta ≤ |parameterValue_j + d_j + r3| then r3
   else if parameterValue_j + d_j + r3 < 0 then lo2 else hi]

/-- mcpSpecTerm: the per-coordinate mcp penalty value as the spec states it:
lambda_j |x| - x^2/(2 theta) for |x| <= theta lambda_j, and
theta lambda_j^2 / 2 beyond. -/
def mcpSpecTerm (lambda_j theta x : ℚ) : ℚ :=
  if |x| ≤ theta * lambda_j then lambda_j * |x| - x ^ 2 / (2 * theta)
  else theta * lambda_j ^ 2 / 2

/-- mcpSpecValue: the spec formula for the mcp penalty value, summed over the
coordinates with lambda_j = lambda * w_j. -/
def mcpSpecValue (lambda theta : ℚ) : List ℚ → List ℚ → ℚ
  | x :: xs, w :: ws => mcpSpecTerm (lambda * w) theta x + mcpSpecValue lambda theta xs ws
  | _, _ => 0

/-- ridgeSpecClaimedValue: the ridge value formula exactly as the spec states
it, sum of lambda_j x_j^2 with lambda_j = lambda * w_j (no alpha factor). -/
def ridgeSpecClaimedValue (lambda : ℚ) : List ℚ → List ℚ → ℚ
  | x :: xs, w :: ws => (lambda * w) * x ^ 2 + ridgeSpecClaimedValue lambda xs ws
  | _, _ => 0

/-- ridgeSpecValue: the corrected ridge value formula, sum of
lambda_j x_j^2 with lambda_j = (1 - alpha) * lambda * w_j. -/
def ridgeSpecValue (lambda alpha : ℚ) : List ℚ → List ℚ → ℚ
  | x :: xs, w :: ws => ((1 - alpha) * lambda * w) * x ^ 2 + ridgeSpecValue lambda alpha xs ws
  | _, _ => 0

/-- ridgeGlmnetSpecValue: the corrected ridge value formula with
per-parameter tuning, sum of (1 - alpha_j) * lambda_j * w_j * x_j^2. -/
def ridgeGlmnetSpecValue : List ℚ → List ℚ → List ℚ → List ℚ → ℚ
  | x :: xs, w :: ws, l :: ls, a :: arest =>
    ((1 - a) * l * w) * x ^ 2 + ridgeGlmnetSpecValue xs ws ls arest
  | _, _, _, _ => 0

/-! Helper lemmas. -/

lemma mcpValueTerm_eq_specTerm (lambda theta w x : ℚ) :
    mcpValueTerm lambda theta w x = mcpSpecTerm (lambda * w) theta x := by
  by_cases hw : w = 0
  · subst hw
    rcases eq_or_lt_of_le (abs_nonneg x) with heq | hlt
    · have hx0 : x = 0 := abs_eq_zero.mp heq.symm
      subst hx0
      simp [mcpValueTerm, mcpSpecTerm]
    · have hcond : ¬ (|x| ≤ 0) := by linarith
      simp [mcpValueTerm, mcpSpecTerm, hcond]
  · simp only [mcpValueTerm, mcpSpecTerm, if_neg hw]
    rw [mul_comm (lambda * w) theta, sq_abs]

lemma mcpValueSum_eq_specValue (lambda theta : ℚ) (x w : List ℚ) :
    mcpValueSum lambda theta x w = mcpSpecValue lambda theta x w := by
  induction x generalizing w with
  | nil => cases w <;> simp [mcpValueSum, mcpSpecValue]
  | cons a xs ih =>
    cases w with
    | nil => simp [mcpValueSum, mcpSpecValue]
    | cons b ws => simp [mcpValueSum, mcpSpecValue, mcpValueTerm_eq_specTerm, ih]

lemma ridgeValueSum_eq_specValue (lambda alpha : ℚ) (x w : List ℚ) :
    ridgeValueSum lambda alpha x w = ridgeSpecValue lambda alpha x w := by
  induction x generalizing w with
  | nil => cases w <;> simp [ridgeValueSum, ridgeSpecValue]
  | cons a xs ih =>
    cases w with
    | nil => simp [ridgeValueSum, ridgeSpecValue]
    | cons b ws => simp [ridgeValueSum, ridgeSpecValue, ridgeValueTerm, ih]

lemma ridgeSpecValue_alpha_one (lambda : ℚ) (x w : List ℚ) :
    ridgeSpecValue lambda 1 x w = 0 := by
  induction x generalizing w with
  | nil => cases w <;> simp [ridgeSpecValue]
  | cons a xs ih =>
    cases w with
    | nil => simp [ridgeSpecValue]
    | cons b ws => simp [ridgeSpecValue, ih]

lemma ridgeGlmnetValueSum_eq_specValue (x w l a : List ℚ) :
    ridgeGlmnetValueSum x w l a = ridgeGlmnetSpecValue x w l a := by
  induction x generalizing w l a with
  | nil => cases w <;> cases l <;> cases a <;> simp [ridgeGlmnetValueSum, ridgeGlmnetSpecValue]
  | cons p xs ih =>
    cases w with
    | nil => simp [ridgeGlmnetValueSum, ridgeGlmnetSpecValue]
    | cons q ws =>
      cases l with
      | nil => simp [ridgeGlmnetValueSum, ridgeGlmnetSpecValue]
      | cons r ls =>
        cases a with
        | nil => simp [ridgeGlmnetValueSum, ridgeGlmnetSpecValue]
        | cons t arest => simp [ridgeGlmnetValueSum, ridgeGlmnetSpecValue, ridgeValueTerm, ih]

lemma ridgeGlmnetSpecValue_ones (x w l a : List ℚ) (ha : ∀ q ∈ a, q = 1) :
    ridgeGlmnetSpecValue x w l a = 0 := by
  induction x generalizing w l a with
  | nil => cases w <;> cases l <;> cases a <;> simp [ridgeGlmnetSpecValue]
  | cons p xs ih =>
    cases w with
    | nil => simp [ridgeGlmnetSpecValue]
    | cons q ws =>
      cases l with
      | nil => simp [ridgeGlmnetSpecValue]
      | cons r ls =>
        cases a with
        | nil => simp [ridgeGlmnetSpecValue]
        | cons t arest =>
          have ht : t = 1 := ha t (by simp)
          have ih2 := ih ws ls arest (fun q hq => ha q (by simp [hq]))
          simp [ridgeGlmnetSpecValue, ht, ih2]

lemma list_sum_le_length (l : List ℚ) (h : ∀ q ∈ l, q ≤ 1) : l.sum ≤ (l.length : ℚ) := by
  induction l with
  | nil => simp
  | cons a rest ih =>
    have ha : a ≤ 1 := h a (by simp)
    have hrest := ih (fun q hq => h q (by simp [hq]))
    simp only [List.sum_cons, List.length_cons]
    push_cast
    linarith

lemma list_sum_eq_length_all_one (l : List ℚ) (hle : ∀ q ∈ l, q ≤ 1)
    (hsum : l.sum = (l.length : ℚ)) : ∀ q ∈ l, q = 1 := by
  induction l with
  | nil => simp
  | cons a rest ih =>
    have ha : a ≤ 1 := hle a (by simp)
    have hrest_le := list_sum_le_length rest (fun q hq => hle q (by simp [hq]))
    have hsum' : a + rest.sum = (rest.length : ℚ) + 1 := by
      simpa [add_comm, push_cast] using hsum
    have hsum2 : a + rest.sum = (rest.length : ℚ) + 1 := hsum'
    have ha1 : a = 1 := by linarith
    have hrest_sum : rest.sum = (rest.length : ℚ) := by linarith
    intro q hq
    rcases List.mem_cons.mp hq with rfl | hq'
    · exact ha1
    · exact ih (fun q hq => hle q (by simp [hq])) hrest_sum q hq'

/-! C2: mcp penalty value. -/

/-- C2: for every parameter vector, weight vector, lambda >= 0 and theta > 1,
penaltyMcpGlmnet::getValue equals the sum over coordinates of
lambda_j |x_j| - x_j^2/(2 theta) for |x_j| <= theta lambda_j and
theta lambda_j^2/2 beyond, with lambda_j = lambda * w_j; a coordinate with a
zero weight contributes 0 consistently with the formula. -/
theorem mcp_getValue_eq_spec (parameterValues weights : List ℚ) (lambda theta : ℚ)
    (hlam : 0 ≤ lambda) (htheta : 1 < theta) :
    penaltyMcpGlmnet.getValue parameterValues ⟨weights, lambda, theta⟩ =
      mcpSpecValue lambda theta parameterValues weights := by
  unfold penaltyMcpGlmnet.getValue
  exact mcpValueSum_eq_specValue lambda theta parameterValues weights

/-- C2 witness. -/
theorem mcp_getValue_eq_spec_witness :
    (0:ℚ) ≤ 1 ∧ (1:ℚ) < 2 ∧
      penaltyMcpGlmnet.getValue [1] ⟨[1], 1, 2⟩ = mcpSpecValue 1 2 [1] [1] :=
  ⟨by norm_num, by norm_num, mcp_getValue_eq_spec [1] [1] 1 2 (by norm_num) (by norm_num)⟩

/-! C5: ridge penalty value. -/

/-- C5 counterexample: with alpha = 1/2 the ridge penalty value is not the
sum of lambda * w_j * x_j^2 claimed by the spec: the source multiplies by the
elastic-net factor (1 - alpha). -/
theorem ridge_getValue_claim_counterexample :
    penaltyRidge.getValue [1] ⟨[1], 1, 1/2⟩ ≠ ridgeSpecClaimedValue 1 [1] [1] := by
  norm_num [penaltyRidge.getValue, ridgeValueSum, ridgeValueTerm, ridgeSpecClaimedValue]

/-- C5 amended: the ridge penalty value is the sum over coordinates of
lambda_j x_j^2 with lambda_j = (1 - alpha) * lambda * w_j; the per-parameter
glmnet variant uses lambda_j = (1 - alpha_j) * lambda_j * w_j (its early
return requires every alpha_j <= 1, which the spec guarantees). -/
theorem ridge_getValue_eq_spec :
    (∀ (x w : List ℚ) (lambda alpha : ℚ),
      penaltyRidge.getValue x ⟨w, lambda, alpha⟩ = ridgeSpecValue lambda alpha x w)
    ∧ (∀ (x w l a : List ℚ), (∀ q ∈ a, q ≤ 1) →
      penaltyRidgeGlmnet.getValue x ⟨w, l, a⟩ = ridgeGlmnetSpecValue x w l a) := by
  constructor
  · intro x w lambda alpha
    unfold penaltyRidge.getValue
    by_cases hα : alpha = 1
    · simp only [hα, if_pos rfl]
      exact (ridgeSpecValue_alpha_one lambda x w).symm
    · simp only [if_neg hα]
      exact ridgeValueSum_eq_specValue lambda alpha x w
  · intro x w l a ha
    unfold penaltyRidgeGlmnet.getValue
    by_cases hsum : a.sum = (a.length : ℚ)
    · simp only [if_pos hsum]
      exact (ridgeGlmnetSpecValue_ones x w l a
        (list_sum_eq_length_all_one a ha hsum)).symm
    · simp only [if_neg hsum]
      exact ridgeGlmnetValueSum_eq_specValue x w l a

/-- C5 amended witness. -/
theorem ridge_getValue_eq_spec_witness :
    (∀ q ∈ [(1:ℚ)/2], q ≤ 1) ∧
      penaltyRidgeGlmnet.getValue [2] ⟨[1], [3], [1/2]⟩ = ridgeGlmnetSpecValue [2] [1] [3] [1/2] :=
  ⟨by norm_num, ridge_getValue_eq_spec.2 [2] [1] [3] [1/2] (by norm_num)⟩

/-! C6: string to penalty-kind translation. -/

lemma stringPenalty_ok_iff (l : List String) :
    (∃ ks, stringPenaltyToPenaltyType l = Except.ok ks) ↔ ∀ s ∈ l, validPenaltyName s := by
  induction l with
  | nil => simp [stringPenaltyToPenaltyType]
  | cons s rest ih =>
    cases hk : stringToPenaltyKind s with
    | none =>
      constructor
      · rintro ⟨ks, hks⟩
        simp [stringPenaltyToPenaltyType, hk] at hks
      · intro h
        have hv := h s (by simp)
        unfold validPenaltyName at hv
        rw [hk] at hv
        simp at hv
    | some k =>
      constructor
      · rintro ⟨ks, hks⟩
        intro t ht
        rcases List.mem_cons.mp ht with rfl | ht'
        · unfold validPenaltyName
          rw [hk]
          rfl
        · refine (ih.mp ?_) t ht'
          cases hrest : stringPenaltyToPenaltyType rest with
          | ok ks2 => exact ⟨ks2, rfl⟩
          | error e => simp [stringPenaltyToPenaltyType, hk, hrest] at hks
      · intro h
        obtain ⟨ks2, hks2⟩ := ih.mpr (fun t ht => h t (List.mem_cons_of_mem _ ht))
        exact ⟨k :: ks2, by simp [stringPenaltyToPenaltyType, hk, hks2]⟩

lemma stringPenalty_ok_map (l : List String) :
    ∀ ks, stringPenaltyToPenaltyType l = Except.ok ks →
      ks.map some = l.map stringToPenaltyKind := by
  induction l with
  | nil =>
    intro ks hks
    simp [stringPenaltyToPenaltyType] at hks
    simp [← hks]
  | cons s rest ih =>
    intro ks hks
    cases hk : stringToPenaltyKind s with
    | none => simp [stringPenaltyToPenaltyType, hk] at hks
    | some k =>
      cases hrest : stringPenaltyToPenaltyType rest with
      | error e => simp [stringPenaltyToPenaltyType, hk, hrest] at hks
      | ok ks2 =>
        have hks2 : ks = k :: ks2 := by
          simp [stringPenaltyToPenaltyType, hk, hrest] at hks
          exact hks.symm
        subst hks2
        simp [hk, ih ks2 hrest]

lemma stringPenalty_eager (l1 : List String) (s : String) (l2 : List String)
    (h1 : ∀ t ∈ l1, validPenaltyName t) (hs : stringToPenaltyKind s = Option.none) :
    stringPenaltyToPenaltyType (l1 ++ s :: l2) = Except.error (unknownPenaltyMessage s) := by
  induction l1 with
  | nil => simp [stringPenaltyToPenaltyType, hs]
  | cons t rest ih =>
    have hv := h1 t (by simp)
    unfold validPenaltyName at hv
    obtain ⟨k, hk⟩ := Option.isSome_iff_exists.mp hv
    have ihr := ih (fun u hu => h1 u (by simp [hu]))
    simp [stringPenaltyToPenaltyType, hk, ihr]

/-- C6 amended: stringPenaltyToPenaltyType succeeds exactly when every entry
is one of the names actually accepted by the source, which are none,
cappedL1, lasso, lsp, mcp and scad (not ridge, elastic_net or capped_l1);
on success each name is mapped to its kind, and an invalid entry makes the
translation fail eagerly with the unknown-penalty error for the first such
entry, whatever follows it. -/
theorem stringPenaltyToPenaltyType_spec :
    (∀ l : List String,
      (∃ ks, stringPenaltyToPenaltyType l = Except.ok ks) ↔ ∀ s ∈ l, validPenaltyName s)
    ∧ (∀ (l : List String) (ks : List penaltyType), stringPenaltyToPenaltyType l = Except.ok ks →
      ks.map some = l.map stringToPenaltyKind)
    ∧ (∀ (l1 : List String) (s : String) (l2 : List String), (∀ t ∈ l1, validPenaltyName t) →
      stringToPenaltyKind s = Option.none →
      stringPenaltyToPenaltyType (l1 ++ s :: l2) = Except.error (unknownPenaltyMessage s)) :=
  ⟨stringPenalty_ok_iff, stringPenalty_ok_map, stringPenalty_eager⟩

/-- C6 witness: a valid prefix followed by the claimed-valid name ridge fails
eagerly with the unknown-penalty error, whatever comes after. -/
theorem stringPenaltyToPenaltyType_spec_witness :
    (∀ t ∈ ["mcp"], validPenaltyName t) ∧ stringToPenaltyKind "ridge" = Option.none ∧
      stringPenaltyToPenaltyType (["mcp"] ++ "ridge" :: ["lasso"]) =
        Except.error (unknownPenaltyMessage "ridge") :=
  ⟨by decide, by decide,
   stringPenaltyToPenaltyType_spec.2.2 ["mcp"] "ridge" ["lasso"] (by decide) (by decide)⟩

/-- C6 counterexample: the names ridge, elastic_net and capped_l1, which the
claim lists as valid kinds, are rejected by stringPenaltyToPenaltyType. -/
theorem stringPenaltyToPenaltyType_claim_counterexample :
    stringPenaltyToPenaltyType ["ridge"] = Except.error (unknownPenaltyMessage "ridge")
    ∧ stringPenaltyToPenaltyType ["elastic_net"] = Except.error (unknownPenaltyMessage "elastic_net")
    ∧ stringPenaltyToPenaltyType ["capped_l1"] = Except.error (unknownPenaltyMessage "capped_l1") := by
  refine ⟨?_, ?_, ?_⟩ <;> rfl

/-! C7: glmnet ridge with constant tuning vectors refines ista ridge. -/

lemma ridgeGlmnetValueSum_replicate (lambda alpha : ℚ) (x w : List ℚ) :
    ridgeGlmnetValueSum x w (List.replicate x.length lambda) (List.replicate x.length alpha) =
      ridgeValueSum lambda alpha x w := by
  induction x generalizing w with
  | nil => cases w <;> simp [ridgeGlmnetValueSum, ridgeValueSum]
  | cons a xs ih =>
    cases w with
    | nil => simp [ridgeGlmnetValueSum, ridgeValueSum, List.replicate]
    | cons b ws => simp [ridgeGlmnetValueSum, ridgeValueSum, List.replicate, ih]

lemma ridgeGlmnetGradList_replicate (lambda alpha : ℚ) (x w : List ℚ) :
    ridgeGlmnetGradList x w (List.replicate x.length lambda) (List.replicate x.length alpha) =
      List.zipWith (fun p q => ridgeGradTerm lambda alpha q p) x w := by
  induction x generalizing w with
  | nil => cases w <;> simp [ridgeGlmnetGradList]
  | cons a xs ih =>
    cases w with
    | nil => simp [ridgeGlmnetGradList, List.replicate]
    | cons b ws => simp [ridgeGlmnetGradList, List.replicate, ih]

/-- C7: when the glmnet per-parameter tuning vectors are constant
(lambda_j = lambda, alpha_j = alpha, same weights), the glmnet ridge value
and gradients coincide with the ista ridge value and gradients. -/
theorem ridgeGlmnet_refines_ridge (x w : List ℚ) (lambda alpha : ℚ)
    (h0 : 0 ≤ alpha) (h1 : alpha ≤ 1) :
    penaltyRidgeGlmnet.getValue x ⟨w, List.replicate x.length lambda, List.replicate x.length alpha⟩
      = penaltyRidge.getValue x ⟨w, lambda, alpha⟩
    ∧ penaltyRidgeGlmnet.getGradients x
        ⟨w, List.replicate x.length lambda, List.replicate x.length alpha⟩
      = penaltyRidge.getGradients x ⟨w, lambda, alpha⟩ := by
  have hsum : (List.replicate x.length alpha).sum = (x.length : ℚ) * alpha := by
    simp [List.sum_replicate, nsmul_eq_mul]
  have hlen : (List.replicate x.length alpha).length = x.length := by simp
  unfold penaltyRidgeGlmnet.getValue penaltyRidge.getValue
    penaltyRidgeGlmnet.getGradients penaltyRidge.getGradients
  by_cases hα : alpha = 1
  · subst hα
    simp [hsum, hlen]
  · by_cases hn : x.length = 0
    · have hx : x = [] := List.length_eq_zero.mp hn
      subst hx
      cases w <;> simp [ridgeValueSum, ridgeGlmnetValueSum, hα, ridgeGlmnetGradList]
    · have hcond : ¬ ((List.replicate x.length alpha).sum =
          ((List.replicate x.length alpha).length : ℚ)) := by
        rw [hsum, hlen]
        intro hcontra
        have hne : (x.length : ℚ) ≠ 0 := Nat.cast_ne_zero.mpr hn
        have : alpha = 1 := mul_left_cancel₀ hne (by rw [mul_one]; exact hcontra)
        exact hα this
      simp only [if_neg hcond, if_neg hα]
      exact ⟨ridgeGlmnetValueSum_replicate lambda alpha x w,
        ridgeGlmnetGradList_replicate lambda alpha x w⟩

/-- C7 witness. -/
theorem ridgeGlmnet_refines_ridge_witness :
    (0:ℚ) ≤ 1/2 ∧ (1:ℚ)/2 ≤ 1 ∧
      (penaltyRidgeGlmnet.getValue [3]
          ⟨[1], List.replicate (List.length [(3:ℚ)]) 2, List.replicate (List.length [(3:ℚ)]) (1/2)⟩
        = penaltyRidge.getValue [3] ⟨[1], 2, 1/2⟩
      ∧ penaltyRidgeGlmnet.getGradients [3]
          ⟨[1], List.replicate (List.length [(3:ℚ)]) 2, List.replicate (List.length [(3:ℚ)]) (1/2)⟩
        = penaltyRidge.getGradients [3] ⟨[1], 2, 1/2⟩) :=
  ⟨by norm_num, by norm_num, ridgeGlmnet_refines_ridge [3] [1] 2 (1/2) (by norm_num) (by norm_num)⟩

/-! C8: zero weights give zero penalty and zero gradients. -/

lemma mcpValueSum_zero_weights (lambda theta : ℚ) (x w : List ℚ)
    (hw : ∀ u ∈ w, u = 0) : mcpValueSum lambda theta x w = 0 := by
  induction x generalizing w with
  | nil => cases w <;> simp [mcpValueSum]
  | cons a xs ih =>
    cases w with
    | nil => simp [mcpValueSum]
    | cons b ws =>
      have hb : b = 0 := hw b (by simp)
      have ihw := ih ws (fun u hu => hw u (by simp [hu]))
      simp [mcpValueSum, mcpValueTerm, hb, ihw]

lemma ridgeValueSum_zero_weights (lambda alpha : ℚ) (x w : List ℚ)
    (hw : ∀ u ∈ w, u = 0) : ridgeValueSum lambda alpha x w = 0 := by
  induction x generalizing w with
  | nil => cases w <;> simp [ridgeValueSum]
  | cons a xs ih =>
    cases w with
    | nil => simp [ridgeValueSum]
    | cons b ws =>
      have hb : b = 0 := hw b (by simp)
      have ihw := ih ws (fun u hu => hw u (by simp [hu]))
      simp [ridgeValueSum, ridgeValueTerm, hb, ihw]

lemma ridgeGrad_zipWith_zero_weights (lambda alpha : ℚ) (x w : List ℚ)
    (hlen : w.length = x.length) (hw : ∀ u ∈ w, u = 0) :
    List.zipWith (fun p q => ridgeGradTerm lambda alpha q p) x w =
      List.replicate x.length 0 := by
  induction x generalizing w with
  | nil => simp
  | cons a xs ih =>
    cases w with
    | nil => simp at hlen
    | cons b ws =>
      have hb : b = 0 := hw b (by simp)
      have ihw := ih ws (by simpa using hlen) (fun u hu => hw u (by simp [hu]))
      have hterm : ridgeGradTerm lambda alpha b a = 0 := by simp [ridgeGradTerm, hb]
      simp [List.replicate, hterm, ihw]

/-- C8: if every weight is zero, the mcp penalty value, the ridge penalty
value and every ridge gradient entry are zero; per coordinate, a zero weight
makes the value contribution and the gradient entry of that coordinate
zero. -/
theorem zero_weights_zero_penalty :
    (∀ (x : List ℚ) (tp : tuningParametersMcpGlmnet), (∀ u ∈ tp.weights, u = 0) →
      penaltyMcpGlmnet.getValue x tp = 0)
    ∧ (∀ (x : List ℚ) (tp : tuningParametersEnet), (∀ u ∈ tp.weights, u = 0) →
      penaltyRidge.getValue x tp = 0)
    ∧ (∀ (x : List ℚ) (tp : tuningParametersEnet), tp.weights.length = x.length →
      (∀ u ∈ tp.weights, u = 0) →
      penaltyRidge.getGradients x tp = List.replicate x.length 0)
    ∧ (∀ lambda theta x : ℚ, mcpValueTerm lambda theta 0 x = 0)
    ∧ (∀ lambda alpha x : ℚ, ridgeValueTerm lambda alpha 0 x = 0)
    ∧ (∀ lambda alpha x : ℚ, ridgeGradTerm lambda alpha 0 x = 0) := by
  refine ⟨?_, ?_, ?_, ?_, ?_, ?_⟩
  · intro x tp hw
    exact mcpValueSum_zero_weights tp.lambda tp.theta x tp.weights hw
  · intro x tp hw
    unfold penaltyRidge.getValue
    by_cases hα : tp.alpha = 1
    · simp [hα]
    · simp only [if_neg hα]
      exact ridgeValueSum_zero_weights tp.lambda tp.alpha x tp.weights hw
  · intro x tp hlen hw
    unfold penaltyRidge.getGradients
    by_cases hα : tp.alpha = 1
    · simp [hα]
    · simp only [if_neg hα]
      exact ridgeGrad_zipWith_zero_weights tp.lambda tp.alpha x tp.weights hlen hw
  · intro lambda theta x
    simp [mcpValueTerm]
  · intro lambda alpha x
    simp [ridgeValueTerm]
  · intro lambda alpha x
    simp [ridgeGradTerm]

/-- C8 witness. -/
theorem zero_weights_zero_penalty_witness :
    (∀ u ∈ [(0:ℚ)], u = 0) ∧ penaltyMcpGlmnet.getValue [2] ⟨[0], 3, 4⟩ = 0 :=
  ⟨by simp, zero_weights_zero_penalty.1 [2] ⟨[0], 3, 4⟩ (by simp)⟩

/-! C9: mcp subgradients always fail. -/

/-- C9: penaltyMcpGlmnet::getSubgradients fails with its
not-yet-implemented error for every input. -/
theorem mcp_getSubgradients_always_fails (parameterValues gradients : List ℚ)
    (tp : tuningParametersMcpGlmnet) :
    penaltyMcpGlmnet.getSubgradients parameterValues gradients tp =
      Except.error
        "Subgradients not yet implemented for mcp penalty. Use different convergence criterion." :=
  rfl

/-! C10: resizeVector. -/

/-- C10: resizeVector returns a vector of length numberParameters filled with
the single element when the user vector has length one, and returns the user
vector completely unchanged in every other case. -/
theorem resizeVector_spec {α : Type} (numberParameters : Nat) (userVector : List α) :
    (userVector.length = 1 →
      ∃ a, userVector = [a] ∧
        resizeVector numberParameters userVector = List.replicate numberParameters a)
    ∧ (userVector.length ≠ 1 → resizeVector numberParameters userVector = userVector) := by
  match userVector with
  | [] => exact ⟨fun h => by simp at h, fun _ => rfl⟩
  | [a] => exact ⟨fun _ => ⟨a, rfl, rfl⟩, fun h => absurd rfl h⟩
  | a :: b :: rest => exact ⟨fun h => by simp at h, fun _ => rfl⟩

/-- C10 witness. -/
theorem resizeVector_spec_witness :
    ([(5:ℚ)].length = 1)
    ∧ ∃ a, [(5:ℚ)] = [a] ∧ resizeVector 3 [(5:ℚ)] = List.replicate 3 a :=
  ⟨rfl, (resizeVector_spec 3 [(5:ℚ)]).1 rfl⟩

/-! Lemmas about the candidate-selection loop of getZ. -/

lemma selectMin_eq_none_iff (f : ℚ → ℚ) (l : List (Option ℚ)) :
    selectMin f l = Option.none ↔ ∀ c ∈ l, c = Option.none := by
  induction l with
  | nil => simp [selectMin]
  | cons c rest ih =>
    cases c with
    | none =>
      simp only [selectMin]
      rw [ih]
      constructor
      · intro h dd hdd
        rcases List.mem_cons.mp hdd with rfl | hdd'
        · rfl
        · exact h dd hdd'
      · intro h dd hdd
        exact h dd (List.mem_cons_of_mem _ hdd)
    | some z =>
      constructor
      · intro h
        exfalso
        simp only [selectMin] at h
        cases hrest : selectMin f rest with
        | none => rw [hrest] at h; simp at h
        | some zmin =>
          rw [hrest] at h
          by_cases hf : f zmin < f z <;> simp [hf] at h
      · intro h
        exact absurd (h (some z) (by simp)) (by simp)

lemma selectMin_mem (f : ℚ → ℚ) (l : List (Option ℚ)) (z : ℚ)
    (h : selectMin f l = some z) : some z ∈ l := by
  induction l with
  | nil => simp [selectMin] at h
  | cons c rest ih =>
    cases c with
    | none =>
      simp only [selectMin] at h
      exact List.mem_cons_of_mem _ (ih h)
    | some y =>
      cases hrest : selectMin f rest with
      | none =>
        simp only [selectMin, hrest, Option.some.injEq] at h
        subst h
        simp
      | some zmin =>
        simp only [selectMin, hrest] at h
        by_cases hf : f zmin < f y
        · rw [if_pos hf] at h
          simp only [Option.some.injEq] at h
          subst h
          exact List.mem_cons_of_mem _ (ih hrest)
        · rw [if_neg hf] at h
          simp only [Option.some.injEq] at h
          subst h
          simp

lemma selectMin_min (f : ℚ → ℚ) (l : List (Option ℚ)) (z : ℚ)
    (h : selectMin f l = some z) : ∀ q, some q ∈ l → f z ≤ f q := by
  induction l generalizing z with
  | nil => simp [selectMin] at h
  | cons c rest ih =>
    cases c with
    | none =>
      simp only [selectMin] at h
      intro q hq
      rcases List.mem_cons.mp hq with hq0 | hq'
      · exact absurd hq0.symm (by simp)
      · exact ih z h q hq'
    | some y =>
      cases hrest : selectMin f rest with
      | none =>
        simp only [selectMin, hrest, Option.some.injEq] at h
        subst h
        intro q hq
        rcases List.mem_cons.mp hq with hq0 | hq'
        · rw [Option.some.injEq] at hq0
          rw [hq0]
        · exact absurd ((selectMin_eq_none_iff f rest).mp hrest (some q) hq') (by simp)
      | some zmin =>
        simp only [selectMin, hrest] at h
        by_cases hf : f zmin < f y
        · rw [if_pos hf] at h
          simp only [Option.some.injEq] at h
          subst h
          intro q hq
          rcases List.mem_cons.mp hq with hq0 | hq'
          · rw [Option.some.injEq] at hq0
            rw [hq0]
            exact le_of_lt hf
          · exact ih zmin hrest q hq'
        · rw [if_neg hf] at h
          simp only [Option.some.injEq] at h
          subst h
          push_neg at hf
          intro q hq
          rcases List.mem_cons.mp hq with hq0 | hq'
          · rw [Option.some.injEq] at hq0
            rw [hq0]
          · exact le_trans hf (ih zmin hrest q hq')

lemma selectMin_cons_some (f : ℚ → ℚ) (z : ℚ) (rest : List (Option ℚ)) :
    ∃ y, selectMin f (some z :: rest) = some y := by
  cases hrest : selectMin f rest with
  | none => exact ⟨z, by simp [selectMin, hrest]⟩
  | some zmin =>
    by_cases hf : f zmin < f z
    · exact ⟨zmin, by simp [selectMin, hrest, hf]⟩
    · exact ⟨z, by simp [selectMin, hrest, hf]⟩

lemma selectMin_map_some (f : ℚ → ℚ) (l : List ℚ) (hne : l ≠ []) :
    ∃ z, selectMin f (l.map some) = some z ∧ z ∈ l ∧ ∀ c ∈ l, f z ≤ f c := by
  cases l with
  | nil => exact absurd rfl hne
  | cons a rest =>
    obtain ⟨y, hy⟩ := selectMin_cons_some f a (rest.map some)
    refine ⟨y, by simpa using hy, ?_, ?_⟩
    · have := selectMin_mem f ((a :: rest).map some) y (by simpa using hy)
      obtain ⟨c, hc, hcy⟩ := List.mem_map.mp this
      rw [Option.some.injEq] at hcy
      rwa [hcy] at hc
    · intro c hc
      exact selectMin_min f ((a :: rest).map some) y (by simpa using hy) c
        (List.mem_map_of_mem _ hc)

lemma zCandidates_shape (pv g d hXd H lam θ : ℚ) :
    ∃ c0 c1 c2, zCandidates pv g d hXd H lam θ = [some c0, some c1, c2] :=
  ⟨_, _, _, rfl⟩

lemma getZafterPD_ok (pv g d hXd H lam θ : ℚ) :
    ∃ z, getZafterPD pv g d hXd H lam θ = Except.ok z := by
  obtain ⟨c0, c1, c2, hc⟩ := zCandidates_shape pv g d hXd H lam θ
  unfold getZafterPD
  rw [hc]
  obtain ⟨y, hy⟩ := selectMin_cons_some
    (fun z => subproblemValue pv z g d hXd H lam θ) c0 [some c1, c2]
  rw [hy]
  exact ⟨y, rfl⟩

lemma getZcore_out (pv g d hXd H w lt θ : ℚ) (hw : w ≠ 0) :
    (getZcore pv g d hXd H w lt θ).out =
      getZafterPD pv g d hXd (effectiveH H θ) (w * lt) θ := by
  simp [getZcore, hw]

/-! C3: the positive-definiteness fallback of getZ. -/

/-- C3: when getZ runs on a parameter with nonzero weight and
H_jj - 1/theta <= 0, it emits the not-positive-definite warning, inflates
H_jj by exactly 1/theta + 0.001, and still returns a step direction rather
than aborting; when H_jj - 1/theta > 0 no adjustment and no warning occur.
In all cases the returned step is the result of the candidate search run on
the (possibly inflated) diagonal entry. -/
theorem getZ_pd_fallback (pv g d hXd H w lt θ : ℚ) (hw : w ≠ 0) :
    (H - 1 / θ ≤ 0 →
      (getZcore pv g d hXd H w lt θ).warnedNotPosDef = true
      ∧ effectiveH H θ = H + 1 / θ + 1 / 1000)
    ∧ (0 < H - 1 / θ →
      (getZcore pv g d hXd H w lt θ).warnedNotPosDef = false
      ∧ effectiveH H θ = H)
    ∧ (getZcore pv g d hXd H w lt θ).out =
        getZafterPD pv g d hXd (effectiveH H θ) (w * lt) θ
    ∧ ∃ z, (getZcore pv g d hXd H w lt θ).out = Except.ok z := by
  refine ⟨?_, ?_, getZcore_out pv g d hXd H w lt θ hw, ?_⟩
  · intro h
    constructor
    · simp only [getZcore, if_neg hw]
      exact decide_eq_true h
    · unfold effectiveH
      rw [if_pos h]
  · intro h
    have hnot : ¬ (H - 1 / θ ≤ 0) := not_le.mpr h
    constructor
    · simp only [getZcore, if_neg hw]
      exact decide_eq_false hnot
    · unfold effectiveH
      rw [if_neg hnot]
  · rw [getZcore_out pv g d hXd H w lt θ hw]
    exact getZafterPD_ok pv g d hXd (effectiveH H θ) (w * lt) θ

/-- C3 witness: the scenario of spec test S5 (H_jj = 0.1, theta = 3, so
H_jj - 1/theta <= 0). -/
theorem getZ_pd_fallback_witness :
    (1:ℚ) ≠ 0 ∧
      (((1:ℚ)/10 - 1 / 3 ≤ 0 →
        (getZcore (2/5) 1 0 0 (1/10) 1 (1/2) 3).warnedNotPosDef = true
        ∧ effectiveH (1/10) 3 = 1/10 + 1 / 3 + 1 / 1000)
      ∧ ((0:ℚ) < 1/10 - 1 / 3 →
        (getZcore (2/5) 1 0 0 (1/10) 1 (1/2) 3).warnedNotPosDef = false
        ∧ effectiveH (1/10) 3 = 1/10)
      ∧ (getZcore (2/5) 1 0 0 (1/10) 1 (1/2) 3).out =
          getZafterPD (2/5) 1 0 0 (effectiveH (1/10) 3) (1 * (1/2)) 3
      ∧ ∃ z, (getZcore (2/5) 1 0 0 (1/10) 1 (1/2) 3).out = Except.ok z) :=
  ⟨by norm_num, getZ_pd_fallback (2/5) 1 0 0 (1/10) 1 (1/2) 3 (by norm_num)⟩

/-! C4: getZ fails exactly when no candidate is finite. -/

/-- C4: with a nonzero weight, getZ raises the found-no-minimum error exactly
when every one of its three candidate steps is non-finite; whenever at least
one candidate is finite, getZ returns normally with one of the finite
candidates. -/
theorem getZ_error_iff_no_finite_candidate (pv g d hXd H w lt θ : ℚ) (hw : w ≠ 0) :
    ((getZcore pv g d hXd H w lt θ).out = Except.error "Found no minimum"
      ↔ ∀ c ∈ zCandidates pv g d hXd (effectiveH H θ) (w * lt) θ, c = Option.none)
    ∧ (∀ z, (getZcore pv g d hXd H w lt θ).out = Except.ok z →
      some z ∈ zCandidates pv g d hXd (effectiveH H θ) (w * lt) θ)
    ∧ ((∃ q, some q ∈ zCandidates pv g d hXd (effectiveH H θ) (w * lt) θ) →
      ∃ z, (getZcore pv g d hXd H w lt θ).out = Except.ok z
        ∧ some z ∈ zCandidates pv g d hXd (effectiveH H θ) (w * lt) θ) := by
  rw [getZcore_out pv g d hXd H w lt θ hw]
  unfold getZafterPD
  cases hsel : selectMin
      (fun z => subproblemValue pv z g d hXd (effectiveH H θ) (w * lt) θ)
      (zCandidates pv g d hXd (effectiveH H θ) (w * lt) θ) with
  | none =>
    refine ⟨iff_of_true rfl ((selectMin_eq_none_iff _ _).mp hsel), ?_, ?_⟩
    · intro z hz
      exact absurd hz (by simp)
    · rintro ⟨q, hq⟩
      exact absurd ((selectMin_eq_none_iff _ _).mp hsel (some q) hq) (by simp)
  | some y =>
    refine ⟨iff_of_false (by simp) ?_, ?_, ?_⟩
    · intro hall
      rw [(selectMin_eq_none_iff _ _).mpr hall] at hsel
      exact absurd hsel (by simp)
    · intro z hz
      simp only [Except.ok.injEq] at hz
      subst hz
      exact selectMin_mem _ _ _ hsel
    · intro _
      exact ⟨y, rfl, selectMin_mem _ _ _ hsel⟩

/-- C4 witness. -/
theorem getZ_error_iff_no_finite_candidate_witness :
    (1:ℚ) ≠ 0 ∧
      (((getZcore 0 1 0 0 2 1 1 2).out = Except.error "Found no minimum"
        ↔ ∀ c ∈ zCandidates 0 1 0 0 (effectiveH 2 2) (1 * 1) 2, c = Option.none)
      ∧ (∀ z, (getZcore 0 1 0 0 2 1 1 2).out = Except.ok z →
        some z ∈ zCandidates 0 1 0 0 (effectiveH 2 2) (1 * 1) 2)
      ∧ ((∃ q, some q ∈ zCandidates 0 1 0 0 (effectiveH 2 2) (1 * 1) 2) →
        ∃ z, (getZcore 0 1 0 0 2 1 1 2).out = Except.ok z
          ∧ some z ∈ zCandidates 0 1 0 0 (effectiveH 2 2) (1 * 1) 2)) :=
  ⟨by norm_num, getZ_error_iff_no_finite_candidate 0 1 0 0 2 1 1 2 (by norm_num)⟩

/-! C1: getZ returns the minimizer of the subproblem over the clipped
stationary candidates. -/

lemma ite_clip_upper (pvd lamth z : ℚ) :
    (if pvd + z ≤ lamth then z else lamth - pvd) = min (lamth - pvd) z := by
  by_cases h : pvd + z ≤ lamth
  · rw [if_pos h, min_eq_right]
    linarith
  · rw [if_neg h, min_eq_left]
    push_neg at h
    linarith

lemma ite_clip_lower (pvd nlamth z : ℚ) :
    (if nlamth ≤ pvd + z then z else nlamth - pvd) = max (nlamth - pvd) z := by
  by_cases h : nlamth ≤ pvd + z
  · rw [if_pos h, max_eq_right]
    linarith
  · rw [if_neg h, max_eq_left]
    push_neg at h
    linarith

lemma ite_flat (s lamth A B C : ℚ) :
    (if s < 0 then (if s ≤ -lamth then A else B) else (if lamth ≤ s then A else C))
      = (if lamth ≤ |s| then A else if s < 0 then B else C) := by
  by_cases hs : s < 0
  · rw [if_pos hs]
    have habs : |s| = -s := abs_of_neg hs
    by_cases h2 : s ≤ -lamth
    · rw [if_pos h2, if_pos]
      rw [habs]
      linarith
    · rw [if_neg h2, if_neg, if_pos hs]
      rw [habs]
      push_neg at h2
      linarith
  · rw [if_neg hs]
    have habs : |s| = s := abs_of_nonneg (not_lt.mp hs)
    by_cases h2 : lamth ≤ s
    · rw [if_pos h2, if_pos]
      rwa [habs]
    · rw [if_neg h2, if_neg, if_neg hs]
      rwa [habs]

lemma zCandidates_eq_clamped (pv g d hXd He lam θ : ℚ)
    (hden : He * θ - 1 ≠ 0) (hHe : He ≠ 0) :
    zCandidates pv g d hXd He lam θ = (clampedCandidates pv g d hXd He lam θ).map some := by
  simp only [zCandidates, clampedCandidates, posBranchRoot, negBranchRoot,
    List.map_cons, List.map_nil, if_neg hden, if_neg hHe]
  simp only [List.cons.injEq, Option.some.injEq, and_true]
  exact ⟨ite_clip_upper (pv + d) (lam * θ) _, ite_clip_lower (pv + d) (-(lam * θ)) _,
    ite_flat (pv + d + flatRoot g hXd He) (lam * θ) _ _ _⟩

/-- C1: for a call of getZ with nonzero weight (hypotheses stated after the
positive-definiteness adjustment of H_jj, in the nondegenerate case where the
adjusted H_jj and H_jj * theta - 1 are nonzero so that all three candidates
are finite): the three roots are the stationary points of the subproblem
objective restricted to the positive branch, the negative branch and the flat
region respectively; the candidate array consists of exactly these roots
clipped to their feasible regions with the region boundary substituted when
the root lies outside; and getZ evaluates the subproblem objective at the
candidates and returns one whose value is minimal among them. -/
theorem getZ_minimizes_subproblem (pv g d hXd H w lt θ : ℚ)
    (hw : w ≠ 0) (hθ : 1 < θ)
    (hden : effectiveH H θ * θ - 1 ≠ 0) (hHe : effectiveH H θ ≠ 0) :
    g + hXd + effectiveH H θ * posBranchRoot pv g d hXd (effectiveH H θ) (w * lt) θ + w * lt
        - (pv + d + posBranchRoot pv g d hXd (effectiveH H θ) (w * lt) θ) / θ = 0
    ∧ g + hXd + effectiveH H θ * negBranchRoot pv g d hXd (effectiveH H θ) (w * lt) θ - w * lt
        - (pv + d + negBranchRoot pv g d hXd (effectiveH H θ) (w * lt) θ) / θ = 0
    ∧ g + hXd + effectiveH H θ * flatRoot g hXd (effectiveH H θ) = 0
    ∧ zCandidates pv g d hXd (effectiveH H θ) (w * lt) θ
        = (clampedCandidates pv g d hXd (effectiveH H θ) (w * lt) θ).map some
    ∧ ∃ zmin, (getZcore pv g d hXd H w lt θ).out = Except.ok zmin
        ∧ zmin ∈ clampedCandidates pv g d hXd (effectiveH H θ) (w * lt) θ
        ∧ ∀ c ∈ clampedCandidates pv g d hXd (effectiveH H θ) (w * lt) θ,
            subproblemValue pv zmin g d hXd (effectiveH H θ) (w * lt) θ
              ≤ subproblemValue pv c g d hXd (effectiveH H θ) (w * lt) θ := by
  have hθ0 : θ ≠ 0 := ne_of_gt (by linarith)
  refine ⟨?_, ?_, ?_, zCandidates_eq_clamped pv g d hXd (effectiveH H θ) (w * lt) θ hden hHe, ?_⟩
  · unfold posBranchRoot
    field_simp
    ring
  · unfold negBranchRoot
    field_simp
    ring
  · unfold flatRoot
    field_simp
    ring
  · rw [getZcore_out pv g d hXd H w lt θ hw]
    unfold getZafterPD
    rw [zCandidates_eq_clamped pv g d hXd (effectiveH H θ) (w * lt) θ hden hHe]
    obtain ⟨z, hz, hmem, hmin⟩ := selectMin_map_some
      (fun z => subproblemValue pv z g d hXd (effectiveH H θ) (w * lt) θ)
      (clampedCandidates pv g d hXd (effectiveH H θ) (w * lt) θ)
      (by simp [clampedCandidates])
    rw [hz]
    exact ⟨z, rfl, hmem, hmin⟩

/-- C1 witness. -/
theorem getZ_minimizes_subproblem_witness :
    (1:ℚ) ≠ 0 ∧ (1:ℚ) < 2 ∧ effectiveH 2 2 * 2 - 1 ≠ 0 ∧ effectiveH 2 2 ≠ 0 ∧
      ((1:ℚ) + 0 + effectiveH 2 2 * posBranchRoot 0 1 0 0 (effectiveH 2 2) (1 * 1) 2 + 1 * 1
          - (0 + 0 + posBranchRoot 0 1 0 0 (effectiveH 2 2) (1 * 1) 2) / 2 = 0
      ∧ (1:ℚ) + 0 + effectiveH 2 2 * negBranchRoot 0 1 0 0 (effectiveH 2 2) (1 * 1) 2 - 1 * 1
          - (0 + 0 + negBranchRoot 0 1 0 0 (effectiveH 2 2) (1 * 1) 2) / 2 = 0
      ∧ (1:ℚ) + 0 + effectiveH 2 2 * flatRoot 1 0 (effectiveH 2 2) = 0
      ∧ zCandidates 0 1 0 0 (effectiveH 2 2) (1 * 1) 2
          = (clampedCandidates 0 1 0 0 (effectiveH 2 2) (1 * 1) 2).map some
      ∧ ∃ zmin, (getZcore 0 1 0 0 2 1 1 2).out = Except.ok zmin
          ∧ zmin ∈ clampedCandidates 0 1 0 0 (effectiveH 2 2) (1 * 1) 2
          ∧ ∀ c ∈ clampedCandidates 0 1 0 0 (effectiveH 2 2) (1 * 1) 2,
              subproblemValue 0 zmin 1 0 0 (effectiveH 2 2) (1 * 1) 2
                ≤ subproblemValue 0 c 1 0 0 (effectiveH 2 2) (1 * 1) 2) :=
  ⟨by norm_num, by norm_num, by norm_num [effectiveH], by norm_num [effectiveH],
   getZ_minimizes_subproblem 0 1 0 0 2 1 1 2 (by norm_num) (by norm_num)
     (by norm_num [effectiveH]) (by norm_num [effectiveH])⟩

end lessSEM
